import Mathlib

/-!
Shallow embedding of the grove course-catalog core: the record segmenter,
prerequisite extractor, academic-level classifier and eligibility engine of
`tech_elect_map.py`, and the dependency-graph builders of `course_api.py`.

Python strings are modelled as `List Char`; the fixed regular expressions of
the source are modelled by specialised matchers that reproduce Python `re`
semantics (leftmost search, greedy quantifiers with backtracking) on those
patterns.  All inputs of interest are ASCII, so `str.upper`/`str.lower` are
modelled by `Char.toUpper`/`Char.toLower` (basic-latin case mapping).
-/

/-! ## String model -/

/-- A Lean string literal as the `List Char` the embedding works over. -/
def strL (s : String) : List Char := s.data

/-- Python whitespace (`\s` and `str.strip`): space, tab, newline, carriage
return, vertical tab, form feed. -/
def isSpaceCh (c : Char) : Bool :=
  c == ' ' || c == '\t' || c == '\n' || c == '\r' || c == Char.ofNat 11 || c == Char.ofNat 12

/-- `[A-Z]` of the source's patterns. -/
def isUpperCh (c : Char) : Bool := 'A' ≤ c && c ≤ 'Z'

/-- `\d` of the source's patterns. -/
def isDigitCh (c : Char) : Bool := '0' ≤ c && c ≤ '9'

/-- Python `str.strip()`. -/
def stripL (s : List Char) : List Char :=
  ((s.dropWhile isSpaceCh).reverse.dropWhile isSpaceCh).reverse

/-- Python `str.upper()` on ASCII text. -/
def upperL (s : List Char) : List Char := s.map Char.toUpper

/-- Python `str.lower()` on ASCII text. -/
def lowerL (s : List Char) : List Char := s.map Char.toLower

/-- Does `needle` occur at the very start of `hay`? -/
def startsWithL : List Char → List Char → Bool
  | [], _ => true
  | _ :: _, [] => false
  | a :: p, b :: s => a == b && startsWithL p s

/-- Python `needle in hay` (substring test). -/
def containsSub : List Char → List Char → Bool
  | [], needle => needle.isEmpty
  | h :: t, needle => startsWithL needle (h :: t) || containsSub t needle

/-- Python `text.split('\n')`. -/
def splitNl : List Char → List (List Char)
  | [] => [[]]
  | c :: t =>
    match splitNl t with
    | [] => [[]]
    | piece :: rest => if c == '\n' then [] :: piece :: rest else (c :: piece) :: rest

/-- Leftmost occurrence of the (non-empty) separator `sep` in `s`, split as
the part before it and the part after it. -/
def findSep (sep : List Char) (s : List Char) : Option (List Char × List Char) :=
  if startsWithL sep s then some ([], s.drop sep.length)
  else
    match s with
    | [] => none
    | c :: t => (findSep sep t).map (fun p => (c :: p.1, p.2))

/-- Python `str.split(sep)` for a non-empty separator, fuelled; every
iteration consumes at least `sep.length ≥ 1` characters, so fuel
`s.length + 1` never runs out. -/
def splitSepGo (sep : List Char) : Nat → List Char → List (List Char)
  | 0, s => [s]
  | fuel + 1, s =>
    match findSep sep s with
    | none => [s]
    | some (b, a) => b :: splitSepGo sep fuel a

/-- Python `str.split(sep)` for a non-empty separator. -/
def splitSep (sep s : List Char) : List (List Char) := splitSepGo sep (s.length + 1) s

/-- Python `re.sub(r'\s+', ' ', s)`: each maximal whitespace run becomes one
space.  The flag records whether the previous character was whitespace. -/
def collapseWsGo : List Char → Bool → List Char
  | [], _ => []
  | c :: t, inRun =>
    if isSpaceCh c then
      if inRun then collapseWsGo t true else ' ' :: collapseWsGo t true
    else c :: collapseWsGo t false

/-- The source's course-code normalisation
`re.sub(r'\s+', ' ', x.strip())` (`check_prerequisites_met`). -/
def normalizeCode (s : List Char) : List Char := collapseWsGo (stripL s) false

/-! ## The source's regular expressions -/

/-- `re.match(r'^([A-Z]{3}\s+\d{4}[A-Z]?)', line)` — the course-code pattern
opening a record in `parse_courses`; returns group 1.  `\s+` and `\d{4}`
match disjoint characters, so the greedy `\s+` deterministically takes the
maximal whitespace run, and `[A-Z]?` greedily takes a following capital. -/
def lineCodeMatch (s : List Char) : Option (List Char) :=
  match s with
  | a :: b :: c :: rest =>
    if isUpperCh a && isUpperCh b && isUpperCh c then
      let ws := rest.takeWhile isSpaceCh
      if ws.isEmpty then none
      else
        match rest.drop ws.length with
        | d1 :: d2 :: d3 :: d4 :: r3 =>
          if isDigitCh d1 && isDigitCh d2 && isDigitCh d3 && isDigitCh d4 then
            match r3 with
            | e :: _ =>
              if isUpperCh e then some (a :: b :: c :: (ws ++ [d1, d2, d3, d4, e]))
              else some (a :: b :: c :: (ws ++ [d1, d2, d3, d4]))
            | [] => some (a :: b :: c :: (ws ++ [d1, d2, d3, d4]))
          else none
        | _ => none
    else none
  | _ => none

/-- One anchored attempt of `[A-Z]{3}\s*\d{4}[A-Z]?` (the prerequisite
course-code grammar); on success returns the matched text and the rest of
the input after the match. -/
def codeAt (s : List Char) : Option (List Char × List Char) :=
  match s with
  | a :: b :: c :: rest =>
    if isUpperCh a && isUpperCh b && isUpperCh c then
      let ws := rest.takeWhile isSpaceCh
      match rest.drop ws.length with
      | d1 :: d2 :: d3 :: d4 :: r3 =>
        if isDigitCh d1 && isDigitCh d2 && isDigitCh d3 && isDigitCh d4 then
          match r3 with
          | e :: r4 =>
            if isUpperCh e then some (a :: b :: c :: (ws ++ [d1, d2, d3, d4, e]), r4)
            else some (a :: b :: c :: (ws ++ [d1, d2, d3, d4]), r3)
          | [] => some (a :: b :: c :: (ws ++ [d1, d2, d3, d4]), [])
        else none
      | _ => none
    else none
  | _ => none

/-- `re.findall(r'[A-Z]{3}\s*\d{4}[A-Z]?', s)`, fuelled: leftmost,
non-overlapping matches in order.  Every step consumes at least one
character, so fuel `s.length` never runs out. -/
def findCodesGo : Nat → List Char → List (List Char)
  | 0, _ => []
  | _ + 1, [] => []
  | fuel + 1, c :: t =>
    match codeAt (c :: t) with
    | some (code, rest) => code :: findCodesGo fuel rest
    | none => findCodesGo fuel t

/-- `re.findall(r'[A-Z]{3}\s*\d{4}[A-Z]?', s)`. -/
def findCodes (s : List Char) : List (List Char) := findCodesGo s.length s

/-- One anchored attempt of `HDR\s*([^.]+)` (case-insensitive header
followed by the captured prerequisite clause); returns group 1.  The whole
pattern matches here iff the header matches and is followed by at least one
character other than `'.'`.  `\s*` greedily takes the whitespace run after
the header; if only `'.'` or the end of input follows that run, the regex
backtracks one whitespace character, which then forms the capture. -/
def headerAt (hdr : List Char) (s : List Char) : Option (List Char) :=
  if startsWithL (lowerL hdr) (lowerL s) then
    match s.drop hdr.length with
    | [] => none
    | c :: rest =>
      if c == '.' then none
      else
        let ws := (c :: rest).takeWhile isSpaceCh
        match (c :: rest).drop ws.length with
        | [] => some [ws.getLastD ' ']
        | d :: rest2 =>
          if d == '.' then some [ws.getLastD ' ']
          else some ((d :: rest2).takeWhile (fun x => x != '.'))
  else none

/-- `re.search(HDR + r'\s*([^.]+)', s, re.IGNORECASE)`: group 1 of the
match at the leftmost position where the whole pattern matches. -/
def searchHeader (hdr : List Char) : List Char → Option (List Char)
  | [] => none
  | c :: t =>
    match headerAt hdr (c :: t) with
    | some g => some g
    | none => searchHeader hdr t

/-- The alternation `EE|CpE|EE2|CpE1|EE3` of the major-marker pattern.
After a tag the pattern requires `','`, whitespace or the end of the line,
so a short tag succeeds exactly when its longer extensions fail; matching
the alternatives longest-first therefore decides the same lines as Python's
backtracking over the source's order. -/
def majorTags : List (List Char) :=
  [strL ("EE2"), strL ("EE3"), strL ("CpE1"), strL ("EE"), strL ("CpE")]

/-- First alternative of `majorTags` matching at the start of `s`; returns
the rest of `s` after it. -/
def tagAtGo : List (List Char) → List Char → Option (List Char)
  | [], _ => none
  | t :: ts, s => if startsWithL t s then some (s.drop t.length) else tagAtGo ts s

def tagAt (s : List Char) : Option (List Char) := tagAtGo majorTags s

/-- `(,\s*TAG)*\s*$` after the first tag, fuelled; each iteration consumes
the comma and a tag, so fuel `line.length` never runs out. -/
def markerRestGo : Nat → List Char → Bool
  | 0, r => r.all isSpaceCh
  | fuel + 1, r =>
    if r.all isSpaceCh then true
    else
      match r with
      | ',' :: t =>
        match tagAt (t.dropWhile isSpaceCh) with
        | some r2 => markerRestGo fuel r2
        | none => false
      | _ => false

/-- `re.match(r'^(EE|CpE|EE2|CpE1|EE3)(,\s*(EE|CpE|EE2|CpE1|EE3))*\s*$', line)`
as a boolean: is the line exactly a comma-separated list of major tags? -/
def markerLine (line : List Char) : Bool :=
  match tagAt line with
  | some r => markerRestGo line.length r
  | none => false

/-! ## `parse_courses` (the record segmenter) -/

structure Course where
  course_code : List Char
  full_description : List Char
  majors : List Char
deriving DecidableEq

/-- The boilerplate filter of `parse_courses`:
`if not line or "Page" in line or "Dept. of" in line or "Last Updated" in line`. -/
def skipLine (line : List Char) : Bool :=
  line.isEmpty || containsSub line (strL ("Page")) || containsSub line (strL ("Dept. of"))
    || containsSub line (strL ("Last Updated"))

/-- Committing the in-progress record:
`if current_course and current_majors: current_course['majors'] = current_majors; courses.append(...)`.
Note the record's `majors` is overwritten with the *current* majors value. -/
def commitCourse (cur : Option Course) (m : List Char) : List Course :=
  match cur with
  | some c => if !m.isEmpty then [{ c with majors := m }] else []
  | none => []

/-- The line loop of `parse_courses`: `cur` is `current_course`
(`none` for the initial empty dict), `m` is `current_majors`. -/
def parseLoop : List (List Char) → Option Course → List Char → List Course
  | [], cur, m => commitCourse cur m
  | l :: rest, cur, m =>
    if skipLine (stripL l) then parseLoop rest cur m
    else if markerLine (stripL l) then parseLoop rest cur (stripL l)
    else
      match lineCodeMatch (stripL l) with
      | some code => commitCourse cur m ++ parseLoop rest (some ⟨code, stripL l, m⟩) m
      | none =>
        match cur with
        | some c =>
          parseLoop rest
            (some { c with full_description := c.full_description ++ ' ' :: stripL l }) m
        | none => parseLoop rest cur m

/-- `parse_courses(text)` of `tech_elect_map.py`. -/
def parse_courses (text : List Char) : List Course :=
  parseLoop (splitNl text) none []

/-! ## Lookup, extraction, classification, eligibility -/

/-- `search_courses_by_major(courses, major)`: keeps the courses with
`major in course['majors']` (Python substring test), in order. -/
def search_courses_by_major : List Course → List Char → List Course
  | [], _ => []
  | c :: rest, major =>
    if containsSub c.majors major then c :: search_courses_by_major rest major
    else search_courses_by_major rest major

/-- `parse_prerequisites(description)`: the three header patterns are tried
in order (`PR:`, `Prerequisite(s):`, `Prerequisites:`); the first that
matches anywhere (case-insensitively) supplies the clause, which is
stripped and scanned for course codes; the loop then breaks. -/
def parse_prerequisites (description : List Char) : List (List Char) :=
  match searchHeader (strL ("PR:")) description with
  | some g => findCodes (stripL g)
  | none =>
    match searchHeader (strL ("Prerequisite(s):")) description with
    | some g => findCodes (stripL g)
    | none =>
      match searchHeader (strL ("Prerequisites:")) description with
      | some g => findCodes (stripL g)
      | none => []

/-- The inner loop of `check_prerequisites_met`: the prerequisites whose
normalised, uppercased form equals no completed course's. -/
def missingLoop : List (List Char) → List (List Char) → List (List Char)
  | [], _ => []
  | p :: rest, completed =>
    if completed.any (fun comp => upperL (normalizeCode p) == upperL (normalizeCode comp)) then
      missingLoop rest completed
    else p :: missingLoop rest completed

/-- `check_prerequisites_met(course_prereqs, completed_courses)`. -/
def check_prerequisites_met (course_prereqs completed_courses : List (List Char)) :
    Bool × List (List Char) :=
  if course_prereqs.isEmpty then (true, [])
  else
    let missing := missingLoop course_prereqs completed_courses
    (missing.length == 0, missing)

/-- `re.search(r'(\d{4})', s)`: value of the leftmost four-digit window. -/
def findFourDigits : List Char → Option Nat
  | d1 :: d2 :: d3 :: d4 :: rest =>
    if isDigitCh d1 && isDigitCh d2 && isDigitCh d3 && isDigitCh d4 then
      some ((d1.toNat - 48) * 1000 + (d2.toNat - 48) * 100 + (d3.toNat - 48) * 10
        + (d4.toNat - 48))
    else findFourDigits (d2 :: d3 :: d4 :: rest)
  | _ => none

def grad_indicators : List (List Char) :=
  [strL ("graduate standing"), strL ("grad standing"), strL ("admission to mat degree"),
   strL ("graduate student"), strL ("pr: graduate"), strL ("prerequisite: graduate")]

/-- `is_graduate_course(course)`: number ≥ 5000, else indicator phrases in
the lowercased description. -/
def is_graduate_course (course : Course) : Bool :=
  match findFourDigits course.course_code with
  | some n =>
    if n ≥ 5000 then true
    else grad_indicators.any (fun ind => containsSub (lowerL course.full_description) ind)
  | none => grad_indicators.any (fun ind => containsSub (lowerL course.full_description) ind)

/-- `filter_by_academic_level(courses, academic_level)`. -/
def filter_by_academic_level (courses : List Course) (academic_level : List Char) : List Course :=
  if lowerL academic_level == strL ("graduate") then courses
  else if lowerL academic_level == strL ("undergraduate") then
    courses.filter (fun c => !is_graduate_course c)
  else courses

/-- One eligibility-report entry (`course_info` of `get_eligible_courses`). -/
structure EligEntry where
  course_code : List Char
  full_description : List Char
  majors : List Char
  prerequisites : List (List Char)
  prereqs_met : Bool
  missing_prereqs : List (List Char)
  is_graduate : Bool
deriving DecidableEq

/-- The entry built for one course in `get_eligible_courses`. -/
def mkEligEntry (course : Course) (completed : List (List Char)) : EligEntry :=
  let prereqs := parse_prerequisites course.full_description
  let res := check_prerequisites_met prereqs completed
  { course_code := course.course_code, full_description := course.full_description,
    majors := course.majors, prerequisites := prereqs, prereqs_met := res.1,
    missing_prereqs := res.2, is_graduate := is_graduate_course course }

/-- `if major and major not in course['majors']: continue`. -/
def majorSkip (major : Option (List Char)) (course : Course) : Bool :=
  match major with
  | some m => !m.isEmpty && !containsSub course.majors m
  | none => false

/-- The course loop of `get_eligible_courses`. -/
def eligLoop : List Course → List (List Char) → Option (List Char) → List EligEntry
  | [], _, _ => []
  | course :: rest, completed, major =>
    if majorSkip major course then eligLoop rest completed major
    else mkEligEntry course completed :: eligLoop rest completed major

/-- `get_eligible_courses(courses, completed_courses, major, academic_level)`. -/
def get_eligible_courses (courses : List Course) (completed_courses : List (List Char))
    (major : Option (List Char)) (academic_level : List Char) : List EligEntry :=
  eligLoop (filter_by_academic_level courses academic_level) completed_courses major

/-! ## `course_api.py` dependency-graph builders -/

structure GraphNode where
  id : List Char
  label : List Char
  title : List Char
  majors : List (List Char)
  prerequisites : List (List Char)
  is_graduate : Bool
  level : Nat
  group : List Char
deriving DecidableEq

/-- An edge dict; Python's `"from"` key is `edge_from` (`from` is a Lean
keyword). -/
structure GraphEdge where
  edge_from : List Char
  edge_to : List Char
  arrows : List Char
deriving DecidableEq

structure Graph where
  nodes : List GraphNode
  edges : List GraphEdge
deriving DecidableEq

/-- `course['full_description'][:200] + "..."`. -/
def truncTitle (d : List Char) : List Char := d.take 200 ++ strL ("...")

def courseCodes (courses : List Course) : List (List Char) :=
  courses.map (fun c => c.course_code)

/-- The node dict built for a course in `create_course_graph` /
`get_course_graph_by_major`. -/
def mkCourseNode (course : Course) : GraphNode :=
  let prereqs := parse_prerequisites course.full_description
  let is_grad := is_graduate_course course
  let course_number := (findFourDigits course.course_code).getD 4000
  { id := course.course_code, label := course.course_code,
    title := truncTitle course.full_description,
    majors := splitSep (strL (", ")) course.majors,
    prerequisites := prereqs, is_graduate := is_grad, level := course_number,
    group := if is_grad then strL ("graduate") else strL ("undergraduate") }

/-- `create_course_graph()` of `course_api.py`, over an explicit catalog
model in place of the module-global cache. -/
def create_course_graph (courses : List Course) : Graph :=
  let nodes := courses.map mkCourseNode
  let course_codes := courseCodes courses
  let edges := courses.flatMap (fun course =>
    ((parse_prerequisites course.full_description).filter
        (fun prereq => course_codes.contains prereq)).map
      (fun prereq =>
        { edge_from := prereq, edge_to := course.course_code, arrows := strL ("to") }))
  { nodes := nodes, edges := edges }

/-- The synthesized node for an out-of-subset prerequisite in
`get_course_graph_by_major` (group `"prerequisite"`). -/
def mkPrereqNode (prereq_course : Course) (prereq : List Char) : GraphNode :=
  { id := prereq, label := prereq,
    title := truncTitle prereq_course.full_description,
    majors := splitSep (strL (", ")) prereq_course.majors,
    prerequisites := parse_prerequisites prereq_course.full_description,
    is_graduate := is_graduate_course prereq_course,
    level := (findFourDigits prereq).getD 4000,
    group := strL ("prerequisite") }

/-- Mutable state of `get_course_graph_by_major`'s edge loop: the node and
edge lists of `graph` and the growing `filtered_codes` set (modelled as the
list of its members). -/
structure GState where
  nodes : List GraphNode
  edges : List GraphEdge
  fcodes : List (List Char)
deriving DecidableEq

/-- The body of the inner `for prereq in prereqs:` loop of
`get_course_graph_by_major`. -/
def addPrereq (courses : List Course) (ccode : List Char) (st : GState) (p : List Char) :
    GState :=
  if (courseCodes courses).contains p then
    if st.fcodes.contains p then
      { st with edges := st.edges ++ [{ edge_from := p, edge_to := ccode, arrows := strL ("to") }] }
    else
      match courses.find? (fun c => c.course_code == p) with
      | some pc =>
        { st with
          nodes := st.nodes ++ [mkPrereqNode pc p],
          edges := st.edges ++ [{ edge_from := p, edge_to := ccode, arrows := strL ("to") }],
          fcodes := st.fcodes ++ [p] }
      | none =>
        { st with
          edges := st.edges ++ [{ edge_from := p, edge_to := ccode, arrows := strL ("to") }] }
  else st

/-- The inner prerequisite loop, over one course's extracted prerequisites. -/
def addCoursePrereqs (courses : List Course) (ccode : List Char) :
    GState → List (List Char) → GState
  | st, [] => st
  | st, p :: ps => addCoursePrereqs courses ccode (addPrereq courses ccode st p) ps

/-- The outer `for course in filtered_courses:` edge loop. -/
def graphLoop (courses : List Course) : GState → List Course → GState
  | st, [] => st
  | st, course :: rest =>
    graphLoop courses
      (addCoursePrereqs courses course.course_code st (parse_prerequisites course.full_description))
      rest

/-- `get_course_graph_by_major(major)` of `course_api.py`, over an explicit
catalog model in place of the module-global cache. -/
def get_course_graph_by_major (courses : List Course) (major : List Char) : Graph :=
  let filtered_courses := search_courses_by_major courses major
  let st0 : GState :=
    { nodes := filtered_courses.map mkCourseNode, edges := [],
      fcodes := filtered_courses.map (fun c => c.course_code) }
  let stF := graphLoop courses st0 filtered_courses
  { nodes := stF.nodes, edges := stF.edges }

/-! ## Helper lemmas -/

theorem toNat_ofNat_small (n : Nat) (h1 : n < 55296) : (Char.ofNat n).toNat = n := by
  have hv : n.isValidChar := Or.inl h1
  rw [Char.ofNat, dif_pos hv]
  simp [Char.ofNatAux, Char.toNat, UInt32.toNat]

theorem toUpper_eq_space (c : Char) : Char.toUpper c = ' ' → c = ' ' := by
  simp only [Char.toUpper]
  split
  · intro hc
    rename_i hrange
    have h2 := congrArg Char.toNat hc
    rw [toNat_ofNat_small _ (by omega)] at h2
    have h3 : Char.toNat ' ' = 32 := by decide
    rw [h3] at h2
    exact absurd h2 (by omega)
  · exact fun h => h

theorem missingLoop_eq_filter (ps completed : List (List Char)) :
    missingLoop ps completed = ps.filter (fun p =>
      !(completed.any (fun comp => upperL (normalizeCode p) == upperL (normalizeCode comp)))) := by
  induction ps with
  | nil => rfl
  | cons p rest ih =>
    unfold missingLoop
    by_cases h :
        completed.any (fun comp => upperL (normalizeCode p) == upperL (normalizeCode comp)) = true
    · simp [h, List.filter_cons, ih]
    · simp [h, List.filter_cons, ih]

theorem check_prerequisites_met_snd (ps completed : List (List Char)) :
    (check_prerequisites_met ps completed).2 = missingLoop ps completed := by
  unfold check_prerequisites_met
  by_cases hp : ps.isEmpty
  · cases ps with
    | nil => rfl
    | cons a t => simp [List.isEmpty] at hp
  · simp [hp]

theorem check_prerequisites_met_fst_iff (ps completed : List (List Char)) :
    (check_prerequisites_met ps completed).1 = true ↔
      (check_prerequisites_met ps completed).2 = [] := by
  unfold check_prerequisites_met
  by_cases hp : ps.isEmpty
  · simp [hp]
  · simp [hp, List.length_eq_zero]

theorem mem_eligLoop {e : EligEntry} {courses : List Course} {completed : List (List Char)}
    {major : Option (List Char)} (h : e ∈ eligLoop courses completed major) :
    ∃ c ∈ courses, e = mkEligEntry c completed := by
  induction courses with
  | nil => simp [eligLoop] at h
  | cons c rest ih =>
    unfold eligLoop at h
    by_cases hs : majorSkip major c = true
    · rw [if_pos hs] at h
      obtain ⟨c2, hc2, he⟩ := ih h
      exact ⟨c2, List.mem_cons_of_mem _ hc2, he⟩
    · rw [if_neg hs] at h
      rcases List.mem_cons.1 h with he | h2
      · exact ⟨c, List.mem_cons_self _ _, he⟩
      · obtain ⟨c2, hc2, he⟩ := ih h2
        exact ⟨c2, List.mem_cons_of_mem _ hc2, he⟩

/-- C2: every entry the eligibility engine produces lists as missing exactly
the extracted prerequisites for which no completed entry is string-equal
after whitespace-collapsing and uppercasing, in extraction order, and
`prereqs_met` holds iff that list is empty; the normalisation identifies
`eel 3801c` with `EEL 3801C` but keeps `EEL 4750` and `EEL 4750C` apart. -/
theorem c2_eligibility_normalized (courses : List Course) (completed : List (List Char))
    (major : Option (List Char)) (academic_level : List Char) (e : EligEntry)
    (h : e ∈ get_eligible_courses courses completed major academic_level) :
    e.prerequisites = parse_prerequisites e.full_description ∧
    e.missing_prereqs = e.prerequisites.filter (fun p =>
      !(completed.any (fun comp => upperL (normalizeCode p) == upperL (normalizeCode comp)))) ∧
    (e.prereqs_met = true ↔ e.missing_prereqs = []) ∧
    upperL (normalizeCode (strL ("eel 3801c"))) = upperL (normalizeCode (strL ("EEL 3801C"))) ∧
    upperL (normalizeCode (strL ("EEL 4750"))) ≠ upperL (normalizeCode (strL ("EEL 4750C"))) := by
  obtain ⟨c, hc, rfl⟩ := mem_eligLoop h
  refine ⟨rfl, ?_, ?_, by decide, by decide⟩
  · show (check_prerequisites_met (parse_prerequisites c.full_description) completed).2 = _
    rw [check_prerequisites_met_snd, missingLoop_eq_filter]
    rfl
  · exact check_prerequisites_met_fst_iff _ _

def wCourse : Course :=
  ⟨strL ("EEL 4140C"), strL ("EEL 4140C Lasers. PR: EEL 3801C."), strL ("EE")⟩

theorem c2_witness :
    mkEligEntry wCourse [strL ("eel 3801c")] ∈
      get_eligible_courses [wCourse] [strL ("eel 3801c")] none (strL ("undergraduate")) ∧
    (mkEligEntry wCourse [strL ("eel 3801c")]).prereqs_met = true := by
  have h := c2_eligibility_normalized [wCourse] [strL ("eel 3801c")] none
      (strL ("undergraduate")) (mkEligEntry wCourse [strL ("eel 3801c")]) (by decide)
  exact ⟨by decide, h.2.2.1.mpr (by decide)⟩

/-- C7: the classifier returns true iff the code's four-digit number is at
least 5000 or the lowercased full text contains one of the six fixed
graduate phrases; `EEL 5513` with no such phrase is graduate, `EEL 3801C`
with no such phrase is not. -/
theorem c7_is_graduate_rule (course : Course) (n : Nat)
    (h : findFourDigits course.course_code = some n) :
    is_graduate_course course = (decide (5000 ≤ n) ||
      grad_indicators.any (fun ind => containsSub (lowerL course.full_description) ind)) ∧
    is_graduate_course ⟨strL ("EEL 5513"), strL ("EEL 5513 DSP Applications."), strL ("EE")⟩
      = true ∧
    is_graduate_course ⟨strL ("EEL 3801C"), strL ("EEL 3801C Computer Organization."),
      strL ("EE")⟩ = false := by
  refine ⟨?_, by decide, by decide⟩
  unfold is_graduate_course
  rw [h]
  by_cases h5 : 5000 ≤ n
  · simp [ge_iff_le, h5]
  · simp [ge_iff_le, h5]

theorem c7_witness :
    findFourDigits (strL ("EEL 5513")) = some 5513 ∧
    is_graduate_course ⟨strL ("EEL 5513"), strL ("EEL 5513 DSP Applications."), strL ("EE")⟩
      = (decide (5000 ≤ 5513) || grad_indicators.any (fun ind =>
          containsSub (lowerL (strL ("EEL 5513 DSP Applications."))) ind)) := by
  have h := c7_is_graduate_rule
      ⟨strL ("EEL 5513"), strL ("EEL 5513 DSP Applications."), strL ("EE")⟩ 5513 (by decide)
  exact ⟨by decide, h.1⟩

/-- C3: the extractor uses only the first header pattern that matches, in
the fixed order `PR:`, `Prerequisite(s):`, `Prerequisites:`; the clause is
what that header's search captured (text up to the next period), stripped
and scanned left-to-right for course codes without deduplication; the
spec's example extracts `EEE 3307C`, `EEL 4750` and ignores the second
`PR:` clause. -/
theorem c3_extract_first_header (d : List Char) :
    (∀ g, searchHeader (strL ("PR:")) d = some g →
      parse_prerequisites d = findCodes (stripL g)) ∧
    (∀ g, searchHeader (strL ("PR:")) d = none →
      searchHeader (strL ("Prerequisite(s):")) d = some g →
      parse_prerequisites d = findCodes (stripL g)) ∧
    (∀ g, searchHeader (strL ("PR:")) d = none →
      searchHeader (strL ("Prerequisite(s):")) d = none →
      searchHeader (strL ("Prerequisites:")) d = some g →
      parse_prerequisites d = findCodes (stripL g)) ∧
    (searchHeader (strL ("PR:")) d = none →
      searchHeader (strL ("Prerequisite(s):")) d = none →
      searchHeader (strL ("Prerequisites:")) d = none →
      parse_prerequisites d = []) ∧
    parse_prerequisites (strL ("...PR: EEE 3307C, EEL 4750. Other text PR: IGNORED 9999.")) =
      [strL ("EEE 3307C"), strL ("EEL 4750")] ∧
    parse_prerequisites (strL ("PR: EEL 4750 and EEL 4750.")) =
      [strL ("EEL 4750"), strL ("EEL 4750")] := by
  refine ⟨?_, ?_, ?_, ?_, by decide, by decide⟩
  · intro g hg
    unfold parse_prerequisites
    rw [hg]
  · intro g h1 h2
    unfold parse_prerequisites
    rw [h1, h2]
  · intro g h1 h2 h3
    unfold parse_prerequisites
    rw [h1, h2, h3]
  · intro h1 h2 h3
    unfold parse_prerequisites
    rw [h1, h2, h3]

theorem c3_witness :
    searchHeader (strL ("PR:"))
        (strL ("...PR: EEE 3307C, EEL 4750. Other text PR: IGNORED 9999.")) =
      some (strL ("EEE 3307C, EEL 4750")) ∧
    parse_prerequisites (strL ("...PR: EEE 3307C, EEL 4750. Other text PR: IGNORED 9999.")) =
      findCodes (stripL (strL ("EEE 3307C, EEL 4750"))) := by
  have h := (c3_extract_first_header
      (strL ("...PR: EEE 3307C, EEL 4750. Other text PR: IGNORED 9999."))).1
  exact ⟨by decide, h _ (by decide)⟩

theorem startsWithL_self (l : List Char) : startsWithL l l = true := by
  induction l with
  | nil => rfl
  | cons c t ih => simp [startsWithL, ih]

theorem startsWithL_append (p r : List Char) : startsWithL p (p ++ r) = true := by
  induction p with
  | nil => rfl
  | cons c t ih => simp [startsWithL, ih]

theorem containsSub_of_startsWithL {hay needle : List Char}
    (h : startsWithL needle hay = true) : containsSub hay needle = true := by
  cases hay with
  | nil =>
    cases needle with
    | nil => rfl
    | cons c t => simp [startsWithL] at h
  | cons c t => simp [containsSub, h]

theorem containsSub_append_left {a p : List Char} (x : List Char)
    (h : containsSub a p = true) : containsSub (x ++ a) p = true := by
  induction x with
  | nil => exact h
  | cons c t ih => simp [containsSub, ih]

theorem containsSub_self (l : List Char) : containsSub l l = true :=
  containsSub_of_startsWithL (startsWithL_self l)

theorem startsWithL_decomp {p s : List Char} (h : startsWithL p s = true) :
    s = p ++ s.drop p.length := by
  induction p generalizing s with
  | nil => simp
  | cons c t ih =>
    cases s with
    | nil => simp [startsWithL] at h
    | cons c2 s2 =>
      simp only [startsWithL, Bool.and_eq_true, beq_iff_eq] at h
      obtain ⟨rfl, h2⟩ := h
      simpa using ih h2

theorem findSep_decomp {sep s b a : List Char} (h : findSep sep s = some (b, a)) :
    s = b ++ sep ++ a := by
  induction s generalizing b with
  | nil =>
    unfold findSep at h
    by_cases hs : startsWithL sep [] = true
    · rw [if_pos hs] at h
      cases sep with
      | nil =>
        simp at h
        obtain ⟨rfl, rfl⟩ := h
        rfl
      | cons c t => simp [startsWithL] at hs
    · rw [if_neg hs] at h
      simp at h
  | cons c t ih =>
    unfold findSep at h
    by_cases hs : startsWithL sep (c :: t) = true
    · rw [if_pos hs] at h
      simp at h
      obtain ⟨rfl, rfl⟩ := h
      simpa using startsWithL_decomp hs
    · rw [if_neg hs] at h
      simp only [Option.map_eq_some'] at h
      obtain ⟨⟨b2, a2⟩, hf, hba⟩ := h
      simp at hba
      obtain ⟨rfl, rfl⟩ := hba
      simp [ih hf]

theorem mem_splitSepGo_sub {sep : List Char} {p : List Char} :
    ∀ (fuel : Nat) (s : List Char), p ∈ splitSepGo sep fuel s → containsSub s p = true := by
  intro fuel
  induction fuel with
  | zero =>
    intro s h
    simp [splitSepGo] at h
    exact h ▸ containsSub_self s
  | succ fuel ih =>
    intro s h
    unfold splitSepGo at h
    cases hf : findSep sep s with
    | none =>
      rw [hf] at h
      simp at h
      exact h ▸ containsSub_self s
    | some ba =>
      obtain ⟨b, a⟩ := ba
      rw [hf] at h
      rcases List.mem_cons.1 h with rfl | h2
      · rw [findSep_decomp hf, List.append_assoc]
        exact containsSub_of_startsWithL (startsWithL_append p (sep ++ a))
      · have hc := ih a h2
        rw [findSep_decomp hf, List.append_assoc]
        have := containsSub_append_left (b ++ sep) hc
        simpa [List.append_assoc] using this

/-- C1 counterexample: `EE` is a valid major tag, the record's tag set is
`{EE2}` (so it does not contain `EE`), yet `search_courses_by_major`
returns it, because the lookup is a substring test on the raw majors
string and `EE` is a substring of `EE2`. -/
theorem c1_counterexample :
    search_courses_by_major
        [⟨strL ("EEE 5353"), strL ("EEE 5353 Semiconductor Devices."), strL ("EE2")⟩]
        (strL ("EE")) =
      [⟨strL ("EEE 5353"), strL ("EEE 5353 Semiconductor Devices."), strL ("EE2")⟩] ∧
    splitSep (strL (", ")) (strL ("EE2")) = [strL ("EE2")] ∧
    strL ("EE") ∉ splitSep (strL (", ")) (strL ("EE2")) := by
  refine ⟨by decide, by decide, by decide⟩

/-- C1 amended: `byMajor` keeps, in original order, exactly the records
whose majors *string* contains the tag as a substring; this includes every
record whose tag set (the `', '`-split of that string) contains the tag,
but can also include records with an overlapping longer tag (e.g. `EE`
inside `EE2`). -/
theorem c1_by_major_substring (courses : List Course) (major : List Char) :
    search_courses_by_major courses major =
      courses.filter (fun c => containsSub c.majors major) ∧
    (∀ c ∈ courses, major ∈ splitSep (strL (", ")) c.majors →
      c ∈ search_courses_by_major courses major) := by
  have heq : search_courses_by_major courses major =
      courses.filter (fun c => containsSub c.majors major) := by
    induction courses with
    | nil => rfl
    | cons c rest ih =>
      unfold search_courses_by_major
      by_cases hc : containsSub c.majors major = true
      · simp [hc, List.filter_cons, ih]
      · simp [hc, List.filter_cons, ih]
  refine ⟨heq, ?_⟩
  intro c hc hmem
  rw [heq]
  exact List.mem_filter.2 ⟨hc, mem_splitSepGo_sub _ _ hmem⟩

theorem c1_witness :
    (⟨strL ("EEL 4750"), strL ("EEL 4750 DSP."), strL ("EE, CpE")⟩ : Course) ∈
        [(⟨strL ("EEL 4750"), strL ("EEL 4750 DSP."), strL ("EE, CpE")⟩ : Course)] ∧
    strL ("CpE") ∈ splitSep (strL (", ")) (strL ("EE, CpE")) ∧
    (⟨strL ("EEL 4750"), strL ("EEL 4750 DSP."), strL ("EE, CpE")⟩ : Course) ∈
      search_courses_by_major
        [⟨strL ("EEL 4750"), strL ("EEL 4750 DSP."), strL ("EE, CpE")⟩] (strL ("CpE")) := by
  refine ⟨by decide, by decide, ?_⟩
  exact (c1_by_major_substring
      [⟨strL ("EEL 4750"), strL ("EEL 4750 DSP."), strL ("EE, CpE")⟩] (strL ("CpE"))).2
    _ (by decide) (by decide)

theorem dropWhile_noWs {p : List Char} (h : ∀ c ∈ p, isSpaceCh c = false) :
    p.dropWhile isSpaceCh = p := by
  cases p with
  | nil => rfl
  | cons c t => simp [List.dropWhile_cons, h c (List.mem_cons_self c t)]

theorem stripL_noWs {p : List Char} (h : ∀ c ∈ p, isSpaceCh c = false) : stripL p = p := by
  unfold stripL
  rw [dropWhile_noWs h, dropWhile_noWs (fun c hc => h c (List.mem_reverse.1 hc)),
    List.reverse_reverse]

theorem collapseWs_noWs {p : List Char} (h : ∀ c ∈ p, isSpaceCh c = false) (b : Bool) :
    collapseWsGo p b = p := by
  induction p generalizing b with
  | nil => rfl
  | cons c t ih =>
    have hc := h c (List.mem_cons_self c t)
    simp [collapseWsGo, hc, ih (fun x hx => h x (List.mem_cons_of_mem _ hx))]

theorem normalizeCode_noWs {p : List Char} (h : ∀ c ∈ p, isSpaceCh c = false) :
    normalizeCode p = p := by
  unfold normalizeCode
  rw [stripL_noWs h, collapseWs_noWs h]

theorem space_notin_upperL {p : List Char} (h : ∀ c ∈ p, isSpaceCh c = false) :
    ' ' ∉ upperL p := by
  intro hmem
  obtain ⟨c, hc, hceq⟩ := List.mem_map.1 hmem
  have hsp : c = ' ' := toUpper_eq_space c hceq
  subst hsp
  have := h ' ' hc
  simp [isSpaceCh] at this

theorem space_mem_upperL {s : List Char} (h : ' ' ∈ s) : ' ' ∈ upperL s :=
  List.mem_map.2 ⟨' ', h, by decide⟩

/-- C10: the prerequisite grammar admits codes with no internal whitespace
(`PR: EEL4750.` extracts verbatim `EEL4750`), eligibility normalisation
only collapses existing whitespace, so a whitespace-free extracted
prerequisite can never equal a completed entry whose normalised form
contains a space: it is always reported missing and `prereqs_met` is
false. -/
theorem c10_spaceless_code_never_met (d p : List Char) (completed : List (List Char))
    (hp : p ∈ parse_prerequisites d)
    (hnw : ∀ c ∈ p, isSpaceCh c = false)
    (hc : ∀ comp ∈ completed, ' ' ∈ normalizeCode comp) :
    parse_prerequisites (strL ("PR: EEL4750.")) = [strL ("EEL4750")] ∧
    p ∈ (check_prerequisites_met (parse_prerequisites d) completed).2 ∧
    (check_prerequisites_met (parse_prerequisites d) completed).1 = false := by
  have hne : ∀ comp ∈ completed,
      (upperL (normalizeCode p) == upperL (normalizeCode comp)) = false := by
    intro comp hcm
    rw [beq_eq_false_iff_ne]
    intro heq
    have h1 : ' ' ∉ upperL (normalizeCode p) := by
      rw [normalizeCode_noWs hnw]
      exact space_notin_upperL hnw
    have h2 : ' ' ∈ upperL (normalizeCode comp) := space_mem_upperL (hc comp hcm)
    rw [heq] at h1
    exact h1 h2
  have hanyf : (completed.any (fun comp =>
      upperL (normalizeCode p) == upperL (normalizeCode comp))) = false := by
    rw [List.any_eq_false]
    intro comp hcm
    simp [hne comp hcm]
  have hmem : p ∈ (check_prerequisites_met (parse_prerequisites d) completed).2 := by
    rw [check_prerequisites_met_snd, missingLoop_eq_filter]
    exact List.mem_filter.2 ⟨hp, by simp [hanyf]⟩
  refine ⟨by decide, hmem, ?_⟩
  cases hv : (check_prerequisites_met (parse_prerequisites d) completed).1 with
  | false => rfl
  | true =>
    have hnil := (check_prerequisites_met_fst_iff (parse_prerequisites d) completed).1 hv
    rw [hnil] at hmem
    exact absurd hmem (List.not_mem_nil p)

theorem c10_witness :
    strL ("EEL4750") ∈ parse_prerequisites (strL ("PR: EEL4750.")) ∧
    (∀ c ∈ strL ("EEL4750"), isSpaceCh c = false) ∧
    (∀ comp ∈ [strL ("eel 4750")], ' ' ∈ normalizeCode comp) ∧
    strL ("EEL4750") ∈
      (check_prerequisites_met (parse_prerequisites (strL ("PR: EEL4750.")))
        [strL ("eel 4750")]).2 ∧
    (check_prerequisites_met (parse_prerequisites (strL ("PR: EEL4750.")))
      [strL ("eel 4750")]).1 = false := by
  have h := c10_spaceless_code_never_met (strL ("PR: EEL4750.")) (strL ("EEL4750"))
      [strL ("eel 4750")] (by decide) (by decide) (by decide)
  exact ⟨by decide, by decide, by decide, h.2.1, h.2.2⟩

theorem commitCourse_nil (cur : Option Course) : commitCourse cur [] = [] := by
  cases cur <;> rfl

theorem parseLoop_nil (cur : Option Course) (m : List Char) :
    parseLoop [] cur m = commitCourse cur m := rfl

theorem parseLoop_cons (l : List Char) (rest : List (List Char)) (cur : Option Course)
    (m : List Char) :
    parseLoop (l :: rest) cur m =
      if skipLine (stripL l) then parseLoop rest cur m
      else if markerLine (stripL l) then parseLoop rest cur (stripL l)
      else
        match lineCodeMatch (stripL l) with
        | some code => commitCourse cur m ++ parseLoop rest (some ⟨code, stripL l, m⟩) m
        | none =>
          match cur with
          | some c =>
            parseLoop rest
              (some { c with full_description := c.full_description ++ ' ' :: stripL l }) m
          | none => parseLoop rest cur m := rfl

/-- C4 counterexample: the first line opens a course block before any major
marker appears, a marker follows, and the block is then closed by the next
course-code line — and *is* committed (with the later marker's majors),
contradicting the claim that such a block is always discarded. -/
theorem c4_counterexample :
    lineCodeMatch (stripL (strL ("ABC 1234 X"))) = some (strL ("ABC 1234")) ∧
    markerLine (stripL (strL ("ABC 1234 X"))) = false ∧
    markerLine (stripL (strL ("EE"))) = true ∧
    (parse_courses (strL ("ABC 1234 X\nEE\nDEF 5678 Y"))).map Course.course_code =
      [strL ("ABC 1234"), strL ("DEF 5678")] := by
  exact ⟨by decide, by decide, by decide, by decide⟩

/-- C4 amended: a course block whose code line appears before the first
major-marker line is discarded only when the block is closed out (by the
next code line or the end of input) before any marker has been seen; if a
marker line intervenes before close-out the record *is* committed, with
that marker's majors.  Formally: starting from an empty current-majors
value with any open block, if no further line is a major marker, the
segmenter commits nothing at all. -/
theorem c4_discard_before_marker (lines : List (List Char)) (cur : Option Course)
    (h : ∀ l ∈ lines, markerLine (stripL l) = false) :
    parseLoop lines cur [] = [] := by
  induction lines generalizing cur with
  | nil => cases cur <;> rfl
  | cons l rest ih =>
    have hl := h l (List.mem_cons_self l rest)
    have hrest : ∀ x ∈ rest, markerLine (stripL x) = false :=
      fun x hx => h x (List.mem_cons_of_mem _ hx)
    rw [parseLoop_cons]
    by_cases hs : skipLine (stripL l) = true
    · rw [if_pos hs]
      exact ih _ hrest
    · rw [if_neg hs, hl]
      simp only [Bool.false_eq_true, if_false]
      cases hm : lineCodeMatch (stripL l) with
      | some code =>
        show commitCourse cur [] ++ parseLoop rest (some ⟨code, stripL l, []⟩) [] = []
        rw [commitCourse_nil, List.nil_append]
        exact ih _ hrest
      | none =>
        cases cur with
        | some c0 =>
          show parseLoop rest
            (some { c0 with full_description := c0.full_description ++ ' ' :: stripL l }) [] = []
          exact ih _ hrest
        | none =>
          show parseLoop rest none [] = []
          exact ih _ hrest

theorem c4_witness :
    (∀ l ∈ [strL ("ABC 1234 X"), strL ("more text")],
      markerLine (stripL l) = false) ∧
    parseLoop [strL ("ABC 1234 X"), strL ("more text")] none [] = [] := by
  exact ⟨by decide,
    c4_discard_before_marker [strL ("ABC 1234 X"), strL ("more text")] none (by decide)⟩

theorem commitCourse_majors_eq (code desc mu1 mu2 m : List Char) :
    commitCourse (some ⟨code, desc, mu1⟩) m = commitCourse (some ⟨code, desc, mu2⟩) m := by
  simp [commitCourse]

/-- C5 counterexample: the `ABC 1234` record is opened while the current
majors value is `EE`, the marker `CpE` appears before the record is closed
out, and the committed record carries `CpE` — not the `EE` that was in
effect when its course-code line opened it. -/
theorem c5_counterexample :
    markerLine (strL ("EE")) = true ∧
    parse_courses (strL ("EE\nABC 1234 X\nCpE\nDEF 5678 Y")) =
      [⟨strL ("ABC 1234"), strL ("ABC 1234 X"), strL ("CpE")⟩,
       ⟨strL ("DEF 5678"), strL ("DEF 5678 Y"), strL ("CpE")⟩] ∧
    strL ("CpE") ≠ strL ("EE") := by
  exact ⟨by decide, by decide, by decide⟩

/-- C5 amended: a committed record carries the current-majors value in
effect at the moment it is *closed out*, not the one at the moment it was
opened: the majors stored when the record was opened never influence the
output (first conjunct), and closing a record always overwrites its majors
with the closing-time value (second conjunct). -/
theorem c5_commit_time_majors (lines : List (List Char)) (m : List Char)
    (code desc mu1 mu2 : List Char) :
    parseLoop lines (some ⟨code, desc, mu1⟩) m =
      parseLoop lines (some ⟨code, desc, mu2⟩) m ∧
    commitCourse (some ⟨code, desc, mu1⟩) m =
      (if m.isEmpty then [] else [⟨code, desc, m⟩]) := by
  constructor
  · induction lines generalizing code desc m with
    | nil =>
      show commitCourse _ m = commitCourse _ m
      exact commitCourse_majors_eq code desc mu1 mu2 m
    | cons l rest ih =>
      rw [parseLoop_cons, parseLoop_cons]
      by_cases hs : skipLine (stripL l) = true
      · rw [if_pos hs, if_pos hs]
        exact ih _ _ _
      · rw [if_neg hs, if_neg hs]
        by_cases hm : markerLine (stripL l) = true
        · rw [if_pos hm, if_pos hm]
          exact ih _ _ _
        · rw [if_neg hm, if_neg hm]
          cases hcm : lineCodeMatch (stripL l) with
          | some code2 =>
            show commitCourse (some ⟨code, desc, mu1⟩) m ++
                parseLoop rest (some ⟨code2, stripL l, m⟩) m =
              commitCourse (some ⟨code, desc, mu2⟩) m ++
                parseLoop rest (some ⟨code2, stripL l, m⟩) m
            rw [commitCourse_majors_eq code desc mu1 mu2 m]
          | none =>
            show parseLoop rest (some ⟨code, desc ++ ' ' :: stripL l, mu1⟩) m =
              parseLoop rest (some ⟨code, desc ++ ' ' :: stripL l, mu2⟩) m
            exact ih _ _ _
  · cases hm : m.isEmpty with
    | true =>
      have : m = [] := by
        cases m with
        | nil => rfl
        | cons a t => simp [List.isEmpty] at hm
      subst this
      rfl
    | false => simp [commitCourse, hm]

theorem commitCourse_marker {cur : Option Course} {m : List Char}
    (hm : m = [] ∨ markerLine m = true) :
    ∀ c ∈ commitCourse cur m, markerLine c.majors = true := by
  intro c hc
  cases cur with
  | none => simp [commitCourse] at hc
  | some c0 =>
    unfold commitCourse at hc
    by_cases hne : m.isEmpty = true
    · simp [hne] at hc
    · simp only [hne, Bool.not_false, if_true, Bool.not_eq_true'] at hc
      rcases hm with rfl | hmark
      · simp [List.isEmpty] at hne
      · rw [List.mem_singleton] at hc
        subst hc
        exact hmark

theorem parseLoop_marker_majors (lines : List (List Char)) (cur : Option Course)
    (m : List Char) (hm : m = [] ∨ markerLine m = true) :
    ∀ c ∈ parseLoop lines cur m, markerLine c.majors = true := by
  induction lines generalizing cur m with
  | nil =>
    rw [parseLoop_nil]
    exact commitCourse_marker hm
  | cons l rest ih =>
    intro c hc
    rw [parseLoop_cons] at hc
    by_cases hs : skipLine (stripL l) = true
    · rw [if_pos hs] at hc
      exact ih _ _ hm c hc
    · rw [if_neg hs] at hc
      by_cases hmk : markerLine (stripL l) = true
      · rw [if_pos hmk] at hc
        exact ih _ _ (Or.inr hmk) c hc
      · rw [if_neg hmk] at hc
        cases hcm : lineCodeMatch (stripL l) with
        | some code =>
          rw [hcm] at hc
          rcases List.mem_append.1 hc with h1 | h2
          · exact commitCourse_marker hm c h1
          · exact ih _ _ hm c h2
        | none =>
          rw [hcm] at hc
          cases cur with
          | some c0 => exact ih _ _ hm c hc
          | none => exact ih _ _ hm c hc

/-- C8: every record `parse_courses` commits has a majors string that is a
full match of the major-marker grammar (a comma-separated list of valid
tags), and in particular is non-empty. -/
theorem c8_committed_majors_marker (text : List Char) (c : Course)
    (h : c ∈ parse_courses text) :
    markerLine c.majors = true ∧ c.majors ≠ [] := by
  have hmm := parseLoop_marker_majors (splitNl text) none [] (Or.inl rfl) c h
  refine ⟨hmm, ?_⟩
  intro hnil
  rw [hnil] at hmm
  exact absurd hmm (by decide)

theorem c8_witness :
    (⟨strL ("EEL 4750"), strL ("EEL 4750 DSP."), strL ("EE")⟩ : Course) ∈
      parse_courses (strL ("EE\nEEL 4750 DSP.")) ∧
    (markerLine (strL ("EE")) = true ∧ strL ("EE") ≠ []) := by
  have h := c8_committed_majors_marker (strL ("EE\nEEL 4750 DSP."))
      ⟨strL ("EEL 4750"), strL ("EEL 4750 DSP."), strL ("EE")⟩ (by decide)
  exact ⟨by decide, h⟩

/-- C6 counterexample: with a duplicated course code in the model the graph
builder emits two nodes with the same id, and with a clause listing the
same prerequisite twice it emits the same `(from, to)` edge twice — the
node keys are not pairwise distinct and the edges do not form a set. -/
theorem c6_counterexample :
    ¬ ((create_course_graph
        [⟨strL ("EEL 5513"), strL ("EEL 5513 X."), strL ("EE")⟩,
         ⟨strL ("EEL 5513"), strL ("EEL 5513 X."), strL ("EE")⟩]).nodes.map
          GraphNode.id).Nodup ∧
    ¬ ((create_course_graph
        [⟨strL ("EEL 3801C"), strL ("EEL 3801C X."), strL ("EE")⟩,
         ⟨strL ("EEL 4750"), strL ("EEL 4750 Y. PR: EEL 3801C and EEL 3801C."),
          strL ("EE")⟩]).edges.map (fun e => (e.edge_from, e.edge_to))).Nodup := by
  exact ⟨by decide, by decide⟩

/-! ## Auxiliary facts for the by-major graph builder -/

/-- Is `n` the synthesized `prerequisite`-group node for code `p`? -/
def isPrereqNodeFor (p : List Char) (n : GraphNode) : Bool :=
  n.id == p && n.group == strL ("prerequisite")

/-- Number of `prerequisite`-group nodes carrying id `p`. -/
def prereqNodeCount (nodes : List GraphNode) (p : List Char) : Nat :=
  (nodes.filter (isPrereqNodeFor p)).length

theorem contains_iff_mem {l : List (List Char)} {x : List Char} :
    l.contains x = true ↔ x ∈ l := by
  induction l with
  | nil => simp [List.contains]
  | cons a t ih => simp [List.contains] at ih ⊢

theorem find_code_exists {courses : List Course} {p : List Char}
    (h : p ∈ courseCodes courses) :
    ∃ pc, courses.find? (fun c => c.course_code == p) = some pc := by
  cases hf : courses.find? (fun c => c.course_code == p) with
  | some pc => exact ⟨pc, rfl⟩
  | none =>
    rw [List.find?_eq_none] at hf
    obtain ⟨c, hc, hcp⟩ := List.mem_map.1 h
    exact absurd (by simp [hcp] : (c.course_code == p) = true) (by simpa using hf c hc)

theorem addPrereq_not_in_model {courses : List Course} {ccode : List Char} {st : GState}
    {p : List Char} (hn : ¬ (courseCodes courses).contains p = true) :
    addPrereq courses ccode st p = st := by
  unfold addPrereq
  rw [if_neg hn]

theorem addPrereq_in_fcodes {courses : List Course} {ccode : List Char} {st : GState}
    {p : List Char} (hi : (courseCodes courses).contains p = true)
    (hf : st.fcodes.contains p = true) :
    addPrereq courses ccode st p =
      { st with edges := st.edges ++
          [{ edge_from := p, edge_to := ccode, arrows := strL ("to") }] } := by
  unfold addPrereq
  rw [if_pos hi, if_pos hf]

theorem addPrereq_new {courses : List Course} {ccode : List Char} {st : GState}
    {p : List Char} {pc : Course} (hi : (courseCodes courses).contains p = true)
    (hf : ¬ st.fcodes.contains p = true)
    (hpc : courses.find? (fun c => c.course_code == p) = some pc) :
    addPrereq courses ccode st p =
      { st with
        nodes := st.nodes ++ [mkPrereqNode pc p],
        edges := st.edges ++ [{ edge_from := p, edge_to := ccode, arrows := strL ("to") }],
        fcodes := st.fcodes ++ [p] } := by
  unfold addPrereq
  rw [if_pos hi, if_neg hf, hpc]

theorem prereqNodeCount_append (ns ms : List GraphNode) (p : List Char) :
    prereqNodeCount (ns ++ ms) p = prereqNodeCount ns p + prereqNodeCount ms p := by
  unfold prereqNodeCount
  rw [List.filter_append, List.length_append]

theorem mkCourseNode_group (c : Course) :
    (mkCourseNode c).group = strL ("graduate") ∨
      (mkCourseNode c).group = strL ("undergraduate") := by
  unfold mkCourseNode
  by_cases hg : is_graduate_course c = true
  · left
    simp [hg]
  · right
    simp [hg]

theorem isPrereqNodeFor_mkCourseNode (p : List Char) (c : Course) :
    isPrereqNodeFor p (mkCourseNode c) = false := by
  unfold isPrereqNodeFor
  rcases mkCourseNode_group c with hg | hg <;> rw [hg]
  · have h1 : (strL ("graduate") == strL ("prerequisite")) = false := by decide
    simp [h1]
  · have h1 : (strL ("undergraduate") == strL ("prerequisite")) = false := by decide
    simp [h1]

theorem prereqNodeCount_course_nodes (cs : List Course) (p : List Char) :
    prereqNodeCount (cs.map mkCourseNode) p = 0 := by
  induction cs with
  | nil => rfl
  | cons c t ih =>
    unfold prereqNodeCount at ih ⊢
    simp [List.filter_cons, isPrereqNodeFor_mkCourseNode, ih]

theorem isPrereqNodeFor_mkPrereqNode (p q : List Char) (pc : Course) :
    isPrereqNodeFor p (mkPrereqNode pc q) = (q == p) := by
  unfold isPrereqNodeFor mkPrereqNode
  simp

/-- Invariant of the by-major edge loop: `fcodes` extends the initial
filtered-code set; for every code there is exactly one synthesized
`prerequisite` node iff the code entered `fcodes` beyond the initial set;
every edge source is a code of the full model. -/
def GInv (courses : List Course) (fcodes0 : List (List Char)) (st : GState) : Prop :=
  (∀ q ∈ fcodes0, q ∈ st.fcodes) ∧
  (∀ p : List Char, prereqNodeCount st.nodes p =
    if p ∈ st.fcodes ∧ p ∉ fcodes0 then 1 else 0) ∧
  (∀ e ∈ st.edges, e.edge_from ∈ courseCodes courses)

theorem addPrereq_GInv {courses : List Course} {fcodes0 : List (List Char)}
    {ccode : List Char} {st : GState} {p : List Char} (h : GInv courses fcodes0 st) :
    GInv courses fcodes0 (addPrereq courses ccode st p) ∧
    (∀ q, q ∈ (addPrereq courses ccode st p).fcodes ↔
      q ∈ st.fcodes ∨ (q = p ∧ p ∈ courseCodes courses)) := by
  obtain ⟨hsub, hcount, hedge⟩ := h
  by_cases hin : (courseCodes courses).contains p = true
  · have hpmem : p ∈ courseCodes courses := contains_iff_mem.1 hin
    by_cases hf : st.fcodes.contains p = true
    · have hpf : p ∈ st.fcodes := contains_iff_mem.1 hf
      rw [addPrereq_in_fcodes hin hf]
      refine ⟨⟨hsub, hcount, ?_⟩, ?_⟩
      · intro e he
        rcases List.mem_append.1 he with h1 | h2
        · exact hedge e h1
        · rw [List.mem_singleton] at h2
          subst h2
          exact hpmem
      · intro q
        constructor
        · exact Or.inl
        · rintro (hq | ⟨rfl, _⟩)
          · exact hq
          · exact hpf
    · have hpnot : p ∉ st.fcodes := fun hx => hf (contains_iff_mem.2 hx)
      have hp0 : p ∉ fcodes0 := fun hx => hpnot (hsub p hx)
      obtain ⟨pc, hpc⟩ := find_code_exists hpmem
      rw [addPrereq_new hin hf hpc]
      refine ⟨⟨?_, ?_, ?_⟩, ?_⟩
      · intro q hq
        exact List.mem_append_left _ (hsub q hq)
      · intro q
        dsimp only
        rw [prereqNodeCount_append, hcount q]
        have hsing : prereqNodeCount [mkPrereqNode pc p] q = if q = p then 1 else 0 := by
          unfold prereqNodeCount
          rw [List.filter_singleton, isPrereqNodeFor_mkPrereqNode]
          by_cases hq : q = p
          · subst hq
            simp
          · have hbq : (p == q) = false := by
              rw [beq_eq_false_iff_ne]
              exact fun hx => hq hx.symm
            simp [hbq, hq]
        rw [hsing]
        by_cases hq : q = p
        · subst hq
          have h1 : ¬ (q ∈ st.fcodes ∧ q ∉ fcodes0) := fun hx => hpnot hx.1
          have h2 : q ∈ st.fcodes ++ [q] ∧ q ∉ fcodes0 :=
            ⟨List.mem_append_right _ (List.mem_singleton_self q), hp0⟩
          rw [if_neg h1, if_pos (show q = q from rfl), if_pos h2]
        · have hmm : (q ∈ st.fcodes ++ [p]) ↔ q ∈ st.fcodes := by
            simp [List.mem_append, hq]
          rw [if_neg hq]
          by_cases hql : q ∈ st.fcodes ∧ q ∉ fcodes0
          · rw [if_pos hql, if_pos ⟨hmm.2 hql.1, hql.2⟩]
          · rw [if_neg hql, if_neg (fun hx => hql ⟨hmm.1 hx.1, hx.2⟩)]
      · intro e he
        rcases List.mem_append.1 he with h1 | h2
        · exact hedge e h1
        · rw [List.mem_singleton] at h2
          subst h2
          exact hpmem
      · intro q
        simp only [List.mem_append, List.mem_singleton]
        constructor
        · rintro (hq | rfl)
          · exact Or.inl hq
          · exact Or.inr ⟨rfl, hpmem⟩
        · rintro (hq | ⟨rfl, _⟩)
          · exact Or.inl hq
          · exact Or.inr rfl
  · rw [addPrereq_not_in_model hin]
    refine ⟨⟨hsub, hcount, hedge⟩, ?_⟩
    intro q
    constructor
    · exact Or.inl
    · rintro (hq | ⟨rfl, hmem⟩)
      · exact hq
      · exact absurd (contains_iff_mem.2 hmem) hin

theorem addCoursePrereqs_GInv {courses : List Course} {fcodes0 : List (List Char)}
    {ccode : List Char} (ps : List (List Char)) (st : GState)
    (h : GInv courses fcodes0 st) :
    GInv courses fcodes0 (addCoursePrereqs courses ccode st ps) ∧
    (∀ q, q ∈ (addCoursePrereqs courses ccode st ps).fcodes ↔
      q ∈ st.fcodes ∨ (q ∈ ps ∧ q ∈ courseCodes courses)) := by
  induction ps generalizing st with
  | nil =>
    refine ⟨h, ?_⟩
    intro q
    simp [addCoursePrereqs]
  | cons p ps ih =>
    have hstep := @addPrereq_GInv courses fcodes0 ccode st p h
    have hrec := ih (addPrereq courses ccode st p) hstep.1
    refine ⟨hrec.1, ?_⟩
    intro q
    show q ∈ (addCoursePrereqs courses ccode (addPrereq courses ccode st p) ps).fcodes ↔ _
    rw [hrec.2 q, hstep.2 q]
    constructor
    · rintro ((hq | ⟨rfl, hpm⟩) | ⟨hqs, hqm⟩)
      · exact Or.inl hq
      · exact Or.inr ⟨List.mem_cons_self _ _, hpm⟩
      · exact Or.inr ⟨List.mem_cons_of_mem _ hqs, hqm⟩
    · rintro (hq | ⟨hqc, hqm⟩)
      · exact Or.inl (Or.inl hq)
      · rcases List.mem_cons.1 hqc with rfl | hqs
        · exact Or.inl (Or.inr ⟨rfl, hqm⟩)
        · exact Or.inr ⟨hqs, hqm⟩

theorem graphLoop_GInv {courses : List Course} {fcodes0 : List (List Char)}
    (fl : List Course) (st : GState) (h : GInv courses fcodes0 st) :
    GInv courses fcodes0 (graphLoop courses st fl) ∧
    (∀ q, q ∈ (graphLoop courses st fl).fcodes ↔
      q ∈ st.fcodes ∨
        ((∃ c ∈ fl, q ∈ parse_prerequisites c.full_description) ∧
          q ∈ courseCodes courses)) := by
  induction fl generalizing st with
  | nil =>
    refine ⟨h, ?_⟩
    intro q
    simp [graphLoop]
  | cons c fl ih =>
    have hstep := @addCoursePrereqs_GInv courses fcodes0 c.course_code
      (parse_prerequisites c.full_description) st h
    have hrec := ih (addCoursePrereqs courses c.course_code st
      (parse_prerequisites c.full_description)) hstep.1
    refine ⟨hrec.1, ?_⟩
    intro q
    show q ∈ (graphLoop courses (addCoursePrereqs courses c.course_code st
      (parse_prerequisites c.full_description)) fl).fcodes ↔ _
    rw [hrec.2 q, hstep.2 q]
    constructor
    · rintro ((hq | ⟨hqp, hqm⟩) | ⟨⟨c2, hc2, hqp⟩, hqm⟩)
      · exact Or.inl hq
      · exact Or.inr ⟨⟨c, List.mem_cons_self _ _, hqp⟩, hqm⟩
      · exact Or.inr ⟨⟨c2, List.mem_cons_of_mem _ hc2, hqp⟩, hqm⟩
    · rintro (hq | ⟨⟨c2, hc2, hqp⟩, hqm⟩)
      · exact Or.inl (Or.inl hq)
      · rcases List.mem_cons.1 hc2 with rfl | hc2
        · exact Or.inl (Or.inr ⟨hqp, hqm⟩)
        · exact Or.inr ⟨⟨c2, hc2, hqp⟩, hqm⟩

/-- C9: in the by-major graph, every edge's source is a code of the full
model (unknown prerequisite codes yield neither edges nor nodes), and there
is exactly one synthesized `prerequisite`-group node for code `p` iff `p`
is a model code outside the filtered subset that some filtered course's
extracted prerequisites mention — one node even with several dependents. -/
theorem c9_by_major_graph (courses : List Course) (major : List Char) :
    (∀ e ∈ (get_course_graph_by_major courses major).edges,
      e.edge_from ∈ courseCodes courses) ∧
    (∀ p, prereqNodeCount (get_course_graph_by_major courses major).nodes p =
      if (p ∈ courseCodes courses ∧
          p ∉ courseCodes (search_courses_by_major courses major) ∧
          ∃ c ∈ search_courses_by_major courses major,
            p ∈ parse_prerequisites c.full_description) then 1 else 0) := by
  have hinv0 : GInv courses (courseCodes (search_courses_by_major courses major))
      ⟨(search_courses_by_major courses major).map mkCourseNode, [],
        courseCodes (search_courses_by_major courses major)⟩ := by
    refine ⟨fun q hq => hq, ?_, ?_⟩
    · intro p
      dsimp only
      rw [prereqNodeCount_course_nodes, if_neg (fun hx => hx.2 hx.1)]
    · intro e he
      simp at he
  obtain ⟨⟨hsub, hcount, hedge⟩, hfc⟩ := graphLoop_GInv
    (search_courses_by_major courses major)
    ⟨(search_courses_by_major courses major).map mkCourseNode, [],
      courseCodes (search_courses_by_major courses major)⟩ hinv0
  constructor
  · intro e he
    exact hedge e he
  · intro p
    refine Eq.trans (hcount p) ?_
    by_cases hcond : (p ∈ courseCodes courses ∧
        p ∉ courseCodes (search_courses_by_major courses major) ∧
        ∃ c ∈ search_courses_by_major courses major,
          p ∈ parse_prerequisites c.full_description)
    · have hA : p ∈ (graphLoop courses
          ⟨(search_courses_by_major courses major).map mkCourseNode, [],
            courseCodes (search_courses_by_major courses major)⟩
          (search_courses_by_major courses major)).fcodes :=
        (hfc p).2 (Or.inr ⟨hcond.2.2, hcond.1⟩)
      rw [if_pos ⟨hA, hcond.2.1⟩, if_pos hcond]
    · have hnA : ¬ (p ∈ (graphLoop courses
          ⟨(search_courses_by_major courses major).map mkCourseNode, [],
            courseCodes (search_courses_by_major courses major)⟩
          (search_courses_by_major courses major)).fcodes ∧
          p ∉ courseCodes (search_courses_by_major courses major)) := by
        rintro ⟨h1, h2⟩
        rcases (hfc p).1 h1 with hq | ⟨hex, hall⟩
        · exact h2 hq
        · exact hcond ⟨hall, h2, hex⟩
      rw [if_neg hnA, if_neg hcond]

theorem c9_witness :
    (⟨strL ("EEL 3801C"), strL ("EEL 4750"), strL ("to")⟩ : GraphEdge) ∈
      (get_course_graph_by_major
        [⟨strL ("EEL 3801C"), strL ("EEL 3801C Computer Organization."), strL ("CpE")⟩,
         ⟨strL ("EEL 4750"), strL ("EEL 4750 DSP. PR: EEL 3801C."), strL ("EE")⟩]
        (strL ("EE"))).edges ∧
    strL ("EEL 3801C") ∈ courseCodes
      [⟨strL ("EEL 3801C"), strL ("EEL 3801C Computer Organization."), strL ("CpE")⟩,
       ⟨strL ("EEL 4750"), strL ("EEL 4750 DSP. PR: EEL 3801C."), strL ("EE")⟩] ∧
    prereqNodeCount
      (get_course_graph_by_major
        [⟨strL ("EEL 3801C"), strL ("EEL 3801C Computer Organization."), strL ("CpE")⟩,
         ⟨strL ("EEL 4750"), strL ("EEL 4750 DSP. PR: EEL 3801C."), strL ("EE")⟩]
        (strL ("EE"))).nodes (strL ("EEL 3801C")) = 1 := by
  have h := c9_by_major_graph
    [⟨strL ("EEL 3801C"), strL ("EEL 3801C Computer Organization."), strL ("CpE")⟩,
     ⟨strL ("EEL 4750"), strL ("EEL 4750 DSP. PR: EEL 3801C."), strL ("EE")⟩]
    (strL ("EE"))
  refine ⟨by decide,
    h.1 (⟨strL ("EEL 3801C"), strL ("EEL 4750"), strL ("to")⟩ : GraphEdge) (by decide), ?_⟩
  have hcond : strL ("EEL 3801C") ∈ courseCodes
      [⟨strL ("EEL 3801C"), strL ("EEL 3801C Computer Organization."), strL ("CpE")⟩,
       ⟨strL ("EEL 4750"), strL ("EEL 4750 DSP. PR: EEL 3801C."), strL ("EE")⟩] ∧
      strL ("EEL 3801C") ∉ courseCodes (search_courses_by_major
        [⟨strL ("EEL 3801C"), strL ("EEL 3801C Computer Organization."), strL ("CpE")⟩,
         ⟨strL ("EEL 4750"), strL ("EEL 4750 DSP. PR: EEL 3801C."), strL ("EE")⟩]
        (strL ("EE"))) ∧
      ∃ c ∈ search_courses_by_major
        [⟨strL ("EEL 3801C"), strL ("EEL 3801C Computer Organization."), strL ("CpE")⟩,
         ⟨strL ("EEL 4750"), strL ("EEL 4750 DSP. PR: EEL 3801C."), strL ("EE")⟩]
        (strL ("EE")), strL ("EEL 3801C") ∈ parse_prerequisites c.full_description := by
    decide
  have h2 := h.2 (strL ("EEL 3801C"))
  rw [if_pos hcond] at h2
  exact h2

/-! ## Well-formedness of both graph builders under duplicate-free inputs -/

theorem search_sublist (courses : List Course) (major : List Char) :
    List.Sublist (search_courses_by_major courses major) courses := by
  induction courses with
  | nil => exact List.Sublist.refl _
  | cons c t ih =>
    unfold search_courses_by_major
    by_cases hc : containsSub c.majors major = true
    · rw [if_pos hc]
      exact ih.cons₂ c
    · rw [if_neg hc]
      exact ih.cons c

/-- The `(from, to)` pairs of the edges one of the builders emits for the
course list `cs`, keeping the prerequisites satisfying `pred`, are
duplicate-free when the codes of `cs` are distinct and each course's
extracted prerequisites are duplicate-free. -/
theorem edge_pairs_nodup (cs : List Course) (pred : List Char → Bool)
    (hcodes : (courseCodes cs).Nodup)
    (hprereqs : ∀ c ∈ cs, (parse_prerequisites c.full_description).Nodup) :
    ((cs.flatMap (fun course =>
        ((parse_prerequisites course.full_description).filter pred).map
          (fun prereq =>
            ({ edge_from := prereq, edge_to := course.course_code,
               arrows := strL ("to") } : GraphEdge)))).map
      (fun e => (e.edge_from, e.edge_to))).Nodup := by
  rw [List.map_flatMap, List.nodup_flatMap]
  constructor
  · intro c hc
    rw [List.map_map]
    apply List.Nodup.map
    · intro p q hpq
      simpa using congrArg Prod.fst hpq
    · exact (hprereqs c hc).filter _
  · have hpw : cs.Pairwise (fun a b => a.course_code ≠ b.course_code) := by
      have h2 := hcodes
      unfold courseCodes at h2
      rw [List.Nodup, List.pairwise_map] at h2
      exact h2
    refine hpw.imp ?_
    intro a b hne
    simp only [Function.onFun]
    intro x hxa hxb
    rw [List.map_map, List.mem_map] at hxa hxb
    obtain ⟨p, hp, hxp⟩ := hxa
    obtain ⟨q, hq, hxq⟩ := hxb
    apply hne
    have h3 := congrArg Prod.snd (hxp.trans hxq.symm)
    simpa using h3

theorem addPrereq_edges (courses : List Course) (ccode : List Char) (st : GState)
    (p : List Char) :
    (addPrereq courses ccode st p).edges = st.edges ++
      (if (courseCodes courses).contains p
        then [({ edge_from := p, edge_to := ccode, arrows := strL ("to") } : GraphEdge)]
        else []) := by
  by_cases hin : (courseCodes courses).contains p = true
  · rw [if_pos hin]
    by_cases hf : st.fcodes.contains p = true
    · rw [addPrereq_in_fcodes hin hf]
    · cases hpc : courses.find? (fun c => c.course_code == p) with
      | some pc => rw [addPrereq_new hin hf hpc]
      | none =>
        unfold addPrereq
        rw [if_pos hin, if_neg hf, hpc]
  · rw [addPrereq_not_in_model hin, if_neg hin, List.append_nil]

theorem addCoursePrereqs_edges (courses : List Course) (ccode : List Char)
    (st : GState) (ps : List (List Char)) :
    (addCoursePrereqs courses ccode st ps).edges = st.edges ++
      (ps.filter (fun p => (courseCodes courses).contains p)).map
        (fun p => ({ edge_from := p, edge_to := ccode, arrows := strL ("to") } : GraphEdge)) := by
  induction ps generalizing st with
  | nil => simp [addCoursePrereqs]
  | cons p ps ih =>
    show (addCoursePrereqs courses ccode (addPrereq courses ccode st p) ps).edges = _
    rw [ih, addPrereq_edges, List.filter_cons]
    by_cases hin : (courseCodes courses).contains p = true
    · rw [if_pos hin, if_pos hin]
      simp [List.append_assoc]
    · rw [if_neg hin, if_neg hin]
      simp

theorem graphLoop_edges (courses : List Course) (st : GState) (fl : List Course) :
    (graphLoop courses st fl).edges = st.edges ++
      fl.flatMap (fun c =>
        ((parse_prerequisites c.full_description).filter
            (fun p => (courseCodes courses).contains p)).map
          (fun p =>
            ({ edge_from := p, edge_to := c.course_code,
               arrows := strL ("to") } : GraphEdge))) := by
  induction fl generalizing st with
  | nil => simp [graphLoop]
  | cons c fl ih =>
    show (graphLoop courses (addCoursePrereqs courses c.course_code st
      (parse_prerequisites c.full_description)) fl).edges = _
    rw [ih, addCoursePrereqs_edges]
    simp [List.append_assoc]

/-- Invariant of the by-major loop for node-id distinctness: ids are
duplicate-free and every id already sits in `fcodes` (so a code synthesized
later, being outside `fcodes`, is a fresh id). -/
def NInv (st : GState) : Prop :=
  (st.nodes.map GraphNode.id).Nodup ∧ (∀ n ∈ st.nodes, n.id ∈ st.fcodes)

theorem addPrereq_NInv {courses : List Course} {ccode : List Char} {st : GState}
    {p : List Char} (h : NInv st) : NInv (addPrereq courses ccode st p) := by
  obtain ⟨hids, hmem⟩ := h
  by_cases hin : (courseCodes courses).contains p = true
  · by_cases hf : st.fcodes.contains p = true
    · rw [addPrereq_in_fcodes hin hf]
      exact ⟨hids, hmem⟩
    · cases hpc : courses.find? (fun c => c.course_code == p) with
      | none =>
        unfold addPrereq
        rw [if_pos hin, if_neg hf, hpc]
        exact ⟨hids, hmem⟩
      | some pc =>
        rw [addPrereq_new hin hf hpc]
        have hpnot : p ∉ st.fcodes := fun hx => hf (contains_iff_mem.2 hx)
        constructor
        · show ((st.nodes ++ [mkPrereqNode pc p]).map GraphNode.id).Nodup
          rw [List.map_append]
          refine hids.append (List.nodup_singleton _) ?_
          intro x hx1 hx2
          rw [List.map_singleton, List.mem_singleton] at hx2
          subst hx2
          obtain ⟨n, hn, hnid⟩ := List.mem_map.1 hx1
          exact hpnot (hnid ▸ hmem n hn)
        · show ∀ n ∈ st.nodes ++ [mkPrereqNode pc p], n.id ∈ st.fcodes ++ [p]
          intro n hn
          rcases List.mem_append.1 hn with h1 | h2
          · exact List.mem_append_left _ (hmem n h1)
          · rw [List.mem_singleton] at h2
            subst h2
            exact List.mem_append_right _ (List.mem_singleton_self _)
  · rw [addPrereq_not_in_model hin]
    exact ⟨hids, hmem⟩

theorem addCoursePrereqs_NInv {courses : List Course} {ccode : List Char}
    (ps : List (List Char)) (st : GState) (h : NInv st) :
    NInv (addCoursePrereqs courses ccode st ps) := by
  induction ps generalizing st with
  | nil => exact h
  | cons p ps ih => exact ih _ (addPrereq_NInv h)

theorem graphLoop_NInv {courses : List Course} (fl : List Course) (st : GState)
    (h : NInv st) : NInv (graphLoop courses st fl) := by
  induction fl generalizing st with
  | nil => exact h
  | cons c fl ih => exact ih _ (addCoursePrereqs_NInv _ _ h)

/-- C6 amended: both graph builders — the full-model one and the by-major
one — produce pairwise-distinct node ids and duplicate-free `(from, to)`
edges *provided* the model's course codes are pairwise distinct and no
record's extracted prerequisite sequence repeats a code; with duplicates in
the model, ids and edges repeat (see the counterexample). -/
theorem c6_graph_wellformed (courses : List Course) (major : List Char)
    (hcodes : (courseCodes courses).Nodup)
    (hprereqs : ∀ c ∈ courses, (parse_prerequisites c.full_description).Nodup) :
    ((create_course_graph courses).nodes.map GraphNode.id).Nodup ∧
    ((create_course_graph courses).edges.map (fun e => (e.edge_from, e.edge_to))).Nodup ∧
    ((get_course_graph_by_major courses major).nodes.map GraphNode.id).Nodup ∧
    ((get_course_graph_by_major courses major).edges.map
      (fun e => (e.edge_from, e.edge_to))).Nodup := by
  have hsubl := search_sublist courses major
  have hfcodes : (courseCodes (search_courses_by_major courses major)).Nodup := by
    unfold courseCodes at hcodes ⊢
    exact List.Nodup.sublist (hsubl.map _) hcodes
  refine ⟨?_, ?_, ?_, ?_⟩
  · have h1 : (create_course_graph courses).nodes.map GraphNode.id = courseCodes courses := by
      show (courses.map mkCourseNode).map GraphNode.id = courseCodes courses
      rw [List.map_map]
      rfl
    rw [h1]
    exact hcodes
  · exact edge_pairs_nodup courses (fun prereq => (courseCodes courses).contains prereq)
      hcodes hprereqs
  · have hninv0 : NInv ⟨(search_courses_by_major courses major).map mkCourseNode, [],
        courseCodes (search_courses_by_major courses major)⟩ := by
      constructor
      · show (((search_courses_by_major courses major).map mkCourseNode).map
          GraphNode.id).Nodup
        rw [List.map_map]
        exact hfcodes
      · intro n hn
        obtain ⟨c, hc, rfl⟩ := List.mem_map.1 hn
        exact List.mem_map.2 ⟨c, hc, rfl⟩
    exact (graphLoop_NInv (search_courses_by_major courses major) _ hninv0).1
  · have hedges : (get_course_graph_by_major courses major).edges =
        (search_courses_by_major courses major).flatMap (fun c =>
          ((parse_prerequisites c.full_description).filter
              (fun p => (courseCodes courses).contains p)).map
            (fun p =>
              ({ edge_from := p, edge_to := c.course_code,
                 arrows := strL ("to") } : GraphEdge))) := by
      show (graphLoop courses
        ⟨(search_courses_by_major courses major).map mkCourseNode, [],
          (search_courses_by_major courses major).map (fun c => c.course_code)⟩
        (search_courses_by_major courses major)).edges = _
      rw [graphLoop_edges]
      rfl
    rw [hedges]
    exact edge_pairs_nodup (search_courses_by_major courses major)
      (fun p => (courseCodes courses).contains p) hfcodes
      (fun c hc => hprereqs c (hsubl.subset hc))

theorem c6_witness :
    (courseCodes
      [⟨strL ("EEL 3801C"), strL ("EEL 3801C X."), strL ("CpE")⟩,
       ⟨strL ("EEL 4750"), strL ("EEL 4750 Y. PR: EEL 3801C."), strL ("EE")⟩]).Nodup ∧
    (((create_course_graph
        [⟨strL ("EEL 3801C"), strL ("EEL 3801C X."), strL ("CpE")⟩,
         ⟨strL ("EEL 4750"), strL ("EEL 4750 Y. PR: EEL 3801C."), strL ("EE")⟩]).nodes.map
          GraphNode.id).Nodup ∧
     ((create_course_graph
        [⟨strL ("EEL 3801C"), strL ("EEL 3801C X."), strL ("CpE")⟩,
         ⟨strL ("EEL 4750"), strL ("EEL 4750 Y. PR: EEL 3801C."), strL ("EE")⟩]).edges.map
          (fun e => (e.edge_from, e.edge_to))).Nodup ∧
     ((get_course_graph_by_major
        [⟨strL ("EEL 3801C"), strL ("EEL 3801C X."), strL ("CpE")⟩,
         ⟨strL ("EEL 4750"), strL ("EEL 4750 Y. PR: EEL 3801C."), strL ("EE")⟩]
        (strL ("EE"))).nodes.map GraphNode.id).Nodup ∧
     ((get_course_graph_by_major
        [⟨strL ("EEL 3801C"), strL ("EEL 3801C X."), strL ("CpE")⟩,
         ⟨strL ("EEL 4750"), strL ("EEL 4750 Y. PR: EEL 3801C."), strL ("EE")⟩]
        (strL ("EE"))).edges.map (fun e => (e.edge_from, e.edge_to))).Nodup) := by
  exact ⟨by decide, c6_graph_wellformed _ (strL ("EE")) (by decide) (by decide)⟩
